import Mathlib

/-!
Verification of the concurrent frontier-expansion engine of
`kkrasta_keyworder.py` (class `KeywordSheeter` and its search-engine
clients).  The Python source is embedded shallowly:

* Python `str.strip` is modelled by `pyStrip` over the character list;
* each client's `get_suggestions` is modelled as a pure function of the
  keyword and of an abstract upstream response, returning the suggestion
  list together with the number of HTTP requests issued;
* the worker loop (`scrape_keywords_worker`), the shared queue, the shared
  `scraped_keywords` set and the sink are modelled as a small-step state
  machine.  One micro-step corresponds to one atomic block of the Python
  code (the blocks guarded by `results_lock` are single steps, the
  unguarded accesses are separate steps), and a run is the fold of the
  step function over an arbitrary schedule of worker indices, covering
  every thread interleaving the locks permit.
-/

set_option linter.unusedVariables false

/-! ### Python `str.strip` -/

/-- Python `str.strip()` on the underlying character list: whitespace is
dropped from both ends. -/
def pyStripL (l : List Char) : List Char :=
  ((l.dropWhile Char.isWhitespace).reverse.dropWhile Char.isWhitespace).reverse

/-- Python `str.strip()`. -/
def pyStrip (s : String) : String := ⟨pyStripL s.data⟩

theorem dropWhile_dropWhile (p : Char → Bool) (l : List Char) :
    (l.dropWhile p).dropWhile p = l.dropWhile p := by
  induction l with
  | nil => rfl
  | cons a t ih =>
      by_cases h : p a
      · simpa [List.dropWhile_cons, h] using ih
      · simp [List.dropWhile_cons, h]

theorem head_of_dropWhile_false (p : Char → Bool) (l : List Char) (a : Char)
    (t : List Char) (h : l.dropWhile p = a :: t) : p a = false := by
  induction l with
  | nil => simp at h
  | cons b u ih =>
      by_cases hb : p b
      · exact ih (by simpa [List.dropWhile_cons, hb] using h)
      · rw [List.dropWhile_cons, if_neg (by simp [hb])] at h
        cases h
        simpa using hb

theorem dropWhile_eq_self_of_head_false (p : Char → Bool) (l : List Char)
    (h : ∀ a ∈ l.head?, p a = false) : l.dropWhile p = l := by
  cases l with
  | nil => rfl
  | cons a t =>
      have ha : p a = false := h a (by simp)
      simp [List.dropWhile_cons, ha]

theorem dropWhile_eq_drop (p : Char → Bool) (l : List Char) :
    ∃ k, l.dropWhile p = l.drop k := by
  induction l with
  | nil => exact ⟨0, rfl⟩
  | cons a t ih =>
      by_cases h : p a
      · obtain ⟨k, hk⟩ := ih
        exact ⟨k + 1, by simpa [List.dropWhile_cons, h] using hk⟩
      · exact ⟨0, by simp [List.dropWhile_cons, h]⟩

theorem getLast?_drop_of_ne_nil (l : List Char) (k : Nat)
    (h : l.drop k ≠ []) : (l.drop k).getLast? = l.getLast? := by
  induction l generalizing k with
  | nil => simp at h
  | cons a t ih =>
      cases k with
      | zero => rfl
      | succ k =>
          have h' : t.drop k ≠ [] := by simpa using h
          have ht : t ≠ [] := by
            intro he; exact h' (by simp [he])
          rw [List.drop_succ_cons]
          rw [ih k h']
          cases t with
          | nil => exact absurd rfl ht
          | cons b u => exact (List.getLast?_cons_cons).symm

theorem pyStripL_idem (l : List Char) : pyStripL (pyStripL l) = pyStripL l := by
  set p := Char.isWhitespace with hp
  set A := l.dropWhile p with hA
  set B := A.reverse.dropWhile p with hB
  have hS : pyStripL l = B.reverse := rfl
  -- Step 1: the head of `B.reverse` (if any) is the head of `A`, which
  -- fails `p`; hence the first `dropWhile` does nothing.
  have hdrop1 : B.reverse.dropWhile p = B.reverse := by
    apply dropWhile_eq_self_of_head_false
    intro a ha
    have hne : B.reverse ≠ [] := by
      intro he; rw [he] at ha; simp at ha
    have hBne : B ≠ [] := by
      intro he; exact hne (by simp [he])
    obtain ⟨k, hk⟩ := dropWhile_eq_drop p A.reverse
    have hhead : B.reverse.head? = A.head? := by
      rw [List.head?_reverse]
      rw [hB, hk]
      rw [getLast?_drop_of_ne_nil _ _ (by rw [← hk, ← hB]; exact hBne)]
      exact List.getLast?_reverse A
    have hAne : A ≠ [] := by
      intro he
      rw [he] at hhead
      simp at hhead
      rw [hhead] at ha; simp at ha
    obtain ⟨a0, t0, ha0⟩ := List.exists_cons_of_ne_nil hAne
    have hpa0 : p a0 = false := head_of_dropWhile_false p l a0 t0 (by rw [← hA]; exact ha0)
    have hA0 : A.head? = some a0 := by rw [ha0]; rfl
    rw [hA0] at hhead
    rw [hhead] at ha
    simp at ha
    rw [← ha]
    exact hpa0
  have hdrop2 : B.dropWhile p = B := by
    rw [hB]; exact dropWhile_dropWhile p A.reverse
  show ((B.reverse.dropWhile p).reverse.dropWhile p).reverse = B.reverse
  rw [hdrop1, List.reverse_reverse, hdrop2]

theorem pyStrip_idem (s : String) : pyStrip (pyStrip s) = pyStrip s := by
  show (⟨pyStripL (pyStripL s.data)⟩ : String) = ⟨pyStripL s.data⟩
  rw [pyStripL_idem]

/-! ### Keyword validation (`SearchEngineClient._validate_keyword`) -/

/-- `SearchEngineClient._validate_keyword` (lines 352-358): a keyword is
valid when its stripped text is non-empty and at most 200 characters. -/
def validate_keyword (keyword : String) : Bool :=
  if keyword == "" || pyStrip keyword == "" then false
  else if 200 < (pyStrip keyword).length then false
  else true

/-! ### Google client (`GoogleClient.get_suggestions`, lines 363-397) -/

/-- One entry of the parsed JSON array `data[1]`: either a string or some
other JSON value (filtered out by the `isinstance(suggestion, str)` test). -/
inductive GItem where
  | str (s : String)
  | other
deriving DecidableEq

/-- Shape of the parsed Google payload that the client inspects:
either `len(data) > 1 and isinstance(data[1], list)` fails, or `data[1]`
is a list of items. -/
inductive GData where
  | shortOrNonList
  | withList (items : List GItem)
deriving DecidableEq

/-- The upstream behaviour of one Google request: a network error
(`requests.exceptions.RequestException`), a JSON decode error, any other
exception, or a parsed payload. -/
inductive GoogleResp where
  | netError
  | jsonError
  | otherError
  | ok (d : GData)
deriving DecidableEq

/-- The fallible part of the request (`session.get`, `raise_for_status`,
`response.json()`): errors are raised as exceptions. -/
def googleFetch (resp : GoogleResp) : Except String GData :=
  match resp with
  | .netError => .error "RequestException"
  | .jsonError => .error "JSONDecodeError"
  | .otherError => .error "Exception"
  | .ok d => .ok d

/-- The body of the list comprehension of lines 386-387: keep a string
entry that differs from the queried keyword. -/
def googleKeepItem (keyword : String) (it : GItem) : Option String :=
  match it with
  | .str s => if s ≠ keyword then some s else none
  | .other => none

/-- Extraction from the parsed payload: keep the string entries of
`data[1]` that differ from the queried keyword, then truncate to 20. -/
def googleExtract (keyword : String) (d : GData) : List String :=
  match d with
  | .shortOrNonList => []
  | .withList items => (items.filterMap (googleKeepItem keyword)).take 20

/-- `GoogleClient.get_suggestions`: validate, then fetch inside
`try`/`except` (every exception is logged and swallowed, yielding `[]`).
The second component counts the HTTP requests issued (`0` when validation
fails, `1` otherwise). -/
def google_get_suggestions (keyword : String) (resp : GoogleResp) :
    List String × Nat :=
  if validate_keyword keyword then
    match googleFetch resp with
    | .ok d => (googleExtract keyword d, 1)
    | .error _ => ([], 1)
  else ([], 0)

/-! ### DuckDuckGo client (`DuckDuckGoClient.get_suggestions`, lines 634-683) -/

/-- One entry of `data[1:]`: a dict with a `phrase` key, a plain string,
or anything else (skipped). -/
inductive DItem where
  | phraseObj (p : String)
  | plainStr (s : String)
  | other
deriving DecidableEq

/-- Shape of the parsed DuckDuckGo payload: either
`isinstance(data, list) and len(data) > 1` fails, or we have the items of
`data[1:]`. -/
inductive DData where
  | nonListOrShort
  | tailItems (items : List DItem)
deriving DecidableEq

/-- Upstream behaviour of one DuckDuckGo request. -/
inductive DDGResp where
  | netError
  | jsonError
  | otherError
  | ok (d : DData)
deriving DecidableEq

/-- The fallible part of the DuckDuckGo request. -/
def ddgFetch (resp : DDGResp) : Except String DData :=
  match resp with
  | .netError => .error "RequestException"
  | .jsonError => .error "JSONDecodeError"
  | .otherError => .error "Exception"
  | .ok d => .ok d

/-- The body of the loop of lines 666-672: keep the phrase of a dict
entry, or a plain string entry, when it differs from the queried keyword. -/
def ddgKeepItem (keyword : String) (it : DItem) : Option String :=
  match it with
  | .phraseObj p => if p ≠ keyword then some p else none
  | .plainStr s => if s ≠ keyword then some s else none
  | .other => none

/-- Extraction from the parsed payload: phrases and plain strings of
`data[1:]` that differ from the queried keyword, truncated to 20. -/
def ddgExtract (keyword : String) (d : DData) : List String :=
  match d with
  | .nonListOrShort => []
  | .tailItems items => (items.filterMap (ddgKeepItem keyword)).take 20

/-- `DuckDuckGoClient.get_suggestions`, with the request count. -/
def ddg_get_suggestions (keyword : String) (resp : DDGResp) :
    List String × Nat :=
  if validate_keyword keyword then
    match ddgFetch resp with
    | .ok d => (ddgExtract keyword d, 1)
    | .error _ => ([], 1)
  else ([], 0)

/-! ### Sink (`KeywordSheeter._save_keyword`, lines 1034-1046) -/

/-- The engine state as `_save_keyword` can see it: the dedup set and the
lines of the output file. -/
structure SinkState where
  scraped_keywords : List String
  sinkFile : List String
deriving DecidableEq

/-- The raw file append (`open(...); f.write(keyword + "\n")`), which may
fail with an I/O exception. -/
def writeKeywordLine (writeOk : Bool) (fileLines : List String)
    (keyword : String) : Except String (List String) :=
  if writeOk then .ok (fileLines ++ [keyword]) else .error "file error"

/-- `KeywordSheeter._save_keyword`: display, then append to the output
file when `save_to_file` is set; an I/O failure is logged and swallowed
(the function still returns normally, with the state unchanged). -/
def save_keyword (saveToFile writeOk : Bool) (st : SinkState)
    (keyword : String) : Except String SinkState :=
  if saveToFile then
    match writeKeywordLine writeOk st.sinkFile keyword with
    | .ok f => .ok { st with sinkFile := f }
    | .error _ => .ok st
  else .ok st

/-! ### The engine (`KeywordSheeter`): shared state and worker loop -/

/-- The behaviour of one bound client on one query, as the worker sees it:
a parsed suggestion list, a network error, or a parse error.  (The worker
itself cannot distinguish the three: the clients swallow their errors.) -/
inductive SourceResp where
  | ok (suggestions : List String)
  | netError
  | parseError
deriving DecidableEq

/-- A client's `get_suggestions` as invoked by the worker (line 1004):
the keyword is validated first and every error is swallowed to `[]`.
`source` is the fixed upstream behaviour of this client for the run. -/
def client_get_suggestions (source : String → SourceResp)
    (keyword : String) : List String :=
  if validate_keyword keyword then
    match source keyword with
    | .ok l => l
    | .netError => []
    | .parseError => []
  else []

/-- How a worker's loop ended: `halted` when the `while` guard failed
(stop event, per-engine cap, or five consecutive failures), `starved`
when `keyword_queue.get(timeout=5)` raised `Empty` and the loop broke. -/
inductive Terminal where
  | halted
  | starved
deriving DecidableEq

/-- Position of a worker inside one iteration of
`scrape_keywords_worker`'s loop.  Each constructor is a point between two
atomic blocks of the Python code. -/
inductive WPhase where
  | atLoopTop
  | holding (keyword : String)
  | admitted (keyword : String)
  | queried (suggestions : List String)
  | done (t : Terminal)
deriving DecidableEq

/-- The thread-local variables of one worker (lines 981-982). -/
structure WorkerState where
  phase : WPhase
  scraped_count : Nat
  consecutive_failures : Nat
deriving DecidableEq

/-- The per-run configuration the workers read: one suggestion source per
selected engine and `max_keywords_per_engine`. -/
structure EngineCfg where
  sources : List (String → SourceResp)
  max_keywords_per_engine : Nat

/-- `max_consecutive_failures` (line 983). -/
def max_consecutive_failures : Nat := 5

/-- The shared mutable state of a run, plus the ghost histories
`enqueued` (every keyword ever put on the queue, seeds included),
`processed` (every keyword that passed the pop-time dedup check) and
`sink` (every keyword passed to `_save_keyword`). -/
structure EngineState where
  keyword_queue : List String
  scraped_keywords : List String
  sink : List String
  enqueued : List String
  processed : List String
  stopEvent : Bool
  workers : List WorkerState
deriving DecidableEq

/-- Replace the thread-local state of worker `i`. -/
def setWorker (st : EngineState) (i : Nat) (w : WorkerState) : EngineState :=
  { st with workers := st.workers.set i w }

/-- Line 1013-1015, one pass of the discovery loop: a suggestion that is
not yet in `scraped_keywords` and whose stripped text is non-empty is
pushed on the queue (`keyword_queue.put`) and saved (`_save_keyword`). -/
def admitSuggestion (s : EngineState) (suggestion : String) : EngineState :=
  if suggestion ∉ s.scraped_keywords ∧ 0 < (pyStrip suggestion).length then
    { s with
        keyword_queue := s.keyword_queue ++ [suggestion],
        enqueued := s.enqueued ++ [suggestion],
        sink := s.sink ++ [suggestion] }
  else s

/-- Lines 1011-1015, executed under `results_lock` in one atomic block. -/
def discoverSuggestions (st : EngineState) (suggestions : List String) :
    EngineState :=
  suggestions.foldl admitSuggestion st

/-- The loop-top block (lines 985-993): evaluate the `while` guard and,
when it passes, `keyword_queue.get(timeout=5)` (`Empty` breaks the loop). -/
def stepAtTop (cfg : EngineCfg) (st : EngineState) (i : Nat)
    (w : WorkerState) : EngineState :=
  if st.stopEvent ∨ cfg.max_keywords_per_engine ≤ w.scraped_count ∨
      max_consecutive_failures ≤ w.consecutive_failures then
    setWorker st i { w with phase := .done .halted }
  else
    match st.keyword_queue with
    | [] => setWorker st i { w with phase := .done .starved }
    | keyword :: rest =>
        { setWorker st i { w with phase := .holding keyword } with
            keyword_queue := rest }

/-- The `results_lock` block of lines 996-999: the atomic
membership-test-and-insert on `scraped_keywords` (`continue` on a
duplicate). -/
def stepHolding (st : EngineState) (i : Nat) (w : WorkerState)
    (keyword : String) : EngineState :=
  if keyword ∈ st.scraped_keywords then
    setWorker st i { w with phase := .atLoopTop }
  else
    { setWorker st i { w with phase := .admitted keyword } with
        scraped_keywords := keyword :: st.scraped_keywords,
        processed := keyword :: st.processed }

/-- The client query of line 1004 (performed outside the lock). -/
def stepAdmitted (st : EngineState) (i : Nat) (source : String → SourceResp)
    (w : WorkerState) (keyword : String) : EngineState :=
  setWorker st i
    { w with phase := .queried (client_get_suggestions source keyword) }

/-- Lines 1006-1020: reset or increment `consecutive_failures`, run the
locked discovery block on a non-empty result, and increment
`scraped_count`. -/
def stepQueried (st : EngineState) (i : Nat) (w : WorkerState)
    (suggestions : List String) : EngineState :=
  if suggestions.isEmpty then
    setWorker st i
      { w with phase := .atLoopTop,
               consecutive_failures := w.consecutive_failures + 1,
               scraped_count := w.scraped_count + 1 }
  else
    setWorker (discoverSuggestions st suggestions) i
      { w with phase := .atLoopTop,
               consecutive_failures := 0,
               scraped_count := w.scraped_count + 1 }

/-- Dispatch on the worker's position in its loop (a finished worker's
thread no longer runs, so its step leaves the state unchanged). -/
def dispatchPhase (cfg : EngineCfg) (st : EngineState) (i : Nat)
    (source : String → SourceResp) (w : WorkerState) : WPhase → EngineState
  | .atLoopTop => stepAtTop cfg st i w
  | .holding keyword => stepHolding st i w keyword
  | .admitted keyword => stepAdmitted st i source w keyword
  | .queried suggestions => stepQueried st i w suggestions
  | .done _ => st

/-- One atomic micro-step of worker `i` in `scrape_keywords_worker`.  A
scheduled index that is out of range leaves the state unchanged. -/
def worker_step (cfg : EngineCfg) (st : EngineState) (i : Nat) : EngineState :=
  match cfg.sources[i]?, st.workers[i]? with
  | some source, some w => dispatchPhase cfg st i source w w.phase
  | _, _ => st

/-- A run: the fold of `worker_step` over a schedule of worker indices.
Quantifying over all schedules covers every interleaving of the atomic
blocks that the locks permit. -/
def runEngine (cfg : EngineCfg) (st : EngineState) (sched : List Nat) :
    EngineState :=
  sched.foldl (worker_step cfg) st

/-! ### Seeding (`get_seed_keywords` and `start_scraping`) -/

/-- Parsing of the raw seed input (lines 931 and 945): each piece is
stripped and empty pieces are dropped. -/
def parseSeedLines (lines : List String) : List String :=
  (lines.filter fun line => pyStrip line ≠ "").map pyStrip

/-- `KeywordSheeter.get_seed_keywords`, validation loop of lines 965-972:
keywords longer than 200 characters are skipped with a warning. -/
def get_seed_keywords (lines : List String) : List String :=
  (parseSeedLines lines).filter fun keyword => decide (keyword.length ≤ 200)

/-- `start_scraping` lines 1066-1068 plus object construction: the seed
keywords are put on the queue one by one, unconditionally, and every
worker starts at its loop top with zeroed counters. -/
def initEngine (cfg : EngineCfg) (seedLines : List String) : EngineState :=
  let seeds := get_seed_keywords seedLines
  { keyword_queue := seeds
    scraped_keywords := []
    sink := []
    enqueued := seeds
    processed := []
    stopEvent := false
    workers := cfg.sources.map fun _ => ⟨.atLoopTop, 0, 0⟩ }

/-! ### Basic run lemmas -/

theorem runEngine_nil (cfg : EngineCfg) (st : EngineState) :
    runEngine cfg st [] = st := rfl

theorem runEngine_cons (cfg : EngineCfg) (st : EngineState) (j : Nat)
    (t : List Nat) :
    runEngine cfg st (j :: t) = runEngine cfg (worker_step cfg st j) t := rfl

theorem runEngine_append (cfg : EngineCfg) (st : EngineState)
    (s₁ s₂ : List Nat) :
    runEngine cfg st (s₁ ++ s₂) = runEngine cfg (runEngine cfg st s₁) s₂ :=
  List.foldl_append _ _ _ _

theorem runEngine_inv (cfg : EngineCfg) (P : EngineState → Prop)
    (hstep : ∀ st i, P st → P (worker_step cfg st i)) :
    ∀ (sched : List Nat) (st : EngineState), P st → P (runEngine cfg st sched) := by
  intro sched
  induction sched with
  | nil => intro st h; exact h
  | cons j t ih => intro st h; exact ih _ (hstep st j h)

/-! ### Field-preservation lemmas for the atomic blocks -/

@[simp] theorem setWorker_queue (st : EngineState) (i : Nat) (w : WorkerState) :
    (setWorker st i w).keyword_queue = st.keyword_queue := rfl
@[simp] theorem setWorker_scraped (st : EngineState) (i : Nat) (w : WorkerState) :
    (setWorker st i w).scraped_keywords = st.scraped_keywords := rfl
@[simp] theorem setWorker_sink (st : EngineState) (i : Nat) (w : WorkerState) :
    (setWorker st i w).sink = st.sink := rfl
@[simp] theorem setWorker_enqueued (st : EngineState) (i : Nat) (w : WorkerState) :
    (setWorker st i w).enqueued = st.enqueued := rfl
@[simp] theorem setWorker_processed (st : EngineState) (i : Nat) (w : WorkerState) :
    (setWorker st i w).processed = st.processed := rfl
@[simp] theorem setWorker_stop (st : EngineState) (i : Nat) (w : WorkerState) :
    (setWorker st i w).stopEvent = st.stopEvent := rfl
@[simp] theorem setWorker_workers (st : EngineState) (i : Nat) (w : WorkerState) :
    (setWorker st i w).workers = st.workers.set i w := rfl

@[simp] theorem admitSuggestion_scraped (s : EngineState) (a : String) :
    (admitSuggestion s a).scraped_keywords = s.scraped_keywords := by
  unfold admitSuggestion; split <;> rfl
@[simp] theorem admitSuggestion_processed (s : EngineState) (a : String) :
    (admitSuggestion s a).processed = s.processed := by
  unfold admitSuggestion; split <;> rfl
@[simp] theorem admitSuggestion_workers (s : EngineState) (a : String) :
    (admitSuggestion s a).workers = s.workers := by
  unfold admitSuggestion; split <;> rfl
@[simp] theorem admitSuggestion_stop (s : EngineState) (a : String) :
    (admitSuggestion s a).stopEvent = s.stopEvent := by
  unfold admitSuggestion; split <;> rfl

theorem discoverSuggestions_cons (st : EngineState) (a : String)
    (t : List String) :
    discoverSuggestions st (a :: t) = discoverSuggestions (admitSuggestion st a) t := rfl

@[simp] theorem discoverSuggestions_scraped (l : List String) :
    ∀ st : EngineState, (discoverSuggestions st l).scraped_keywords = st.scraped_keywords := by
  induction l with
  | nil => intro st; rfl
  | cons a t ih =>
      intro st
      rw [discoverSuggestions_cons, ih, admitSuggestion_scraped]

@[simp] theorem discoverSuggestions_processed (l : List String) :
    ∀ st : EngineState, (discoverSuggestions st l).processed = st.processed := by
  induction l with
  | nil => intro st; rfl
  | cons a t ih =>
      intro st
      rw [discoverSuggestions_cons, ih, admitSuggestion_processed]

@[simp] theorem discoverSuggestions_workers (l : List String) :
    ∀ st : EngineState, (discoverSuggestions st l).workers = st.workers := by
  induction l with
  | nil => intro st; rfl
  | cons a t ih =>
      intro st
      rw [discoverSuggestions_cons, ih, admitSuggestion_workers]

@[simp] theorem discoverSuggestions_stop (l : List String) :
    ∀ st : EngineState, (discoverSuggestions st l).stopEvent = st.stopEvent := by
  induction l with
  | nil => intro st; rfl
  | cons a t ih =>
      intro st
      rw [discoverSuggestions_cons, ih, admitSuggestion_stop]

/-- Case analysis on one micro-step: either it is a no-op, or it is a
specific atomic block of a specific worker. -/
theorem worker_step_cases (cfg : EngineCfg) (st : EngineState) (i : Nat) :
    worker_step cfg st i = st ∨
    ∃ source w, cfg.sources[i]? = some source ∧ st.workers[i]? = some w ∧
      ((w.phase = .atLoopTop ∧ worker_step cfg st i = stepAtTop cfg st i w) ∨
       (∃ k, w.phase = .holding k ∧ worker_step cfg st i = stepHolding st i w k) ∨
       (∃ k, w.phase = .admitted k ∧
          worker_step cfg st i = stepAdmitted st i source w k) ∨
       (∃ l, w.phase = .queried l ∧
          worker_step cfg st i = stepQueried st i w l)) := by
  unfold worker_step
  cases hs : cfg.sources[i]? with
  | none => exact Or.inl rfl
  | some source =>
    cases hw : st.workers[i]? with
    | none => exact Or.inl rfl
    | some w =>
      have hred : (match (some source : Option (String → SourceResp)),
          (some w : Option WorkerState) with
        | some source, some w => dispatchPhase cfg st i source w w.phase
        | _, _ => st) = dispatchPhase cfg st i source w w.phase := rfl
      rw [hred]
      cases hph : w.phase with
      | atLoopTop =>
          exact Or.inr ⟨source, w, rfl, rfl, Or.inl ⟨hph, rfl⟩⟩
      | holding k =>
          exact Or.inr ⟨source, w, rfl, rfl, Or.inr (Or.inl ⟨k, hph, rfl⟩)⟩
      | admitted k =>
          exact Or.inr ⟨source, w, rfl, rfl,
            Or.inr (Or.inr (Or.inl ⟨k, hph, rfl⟩))⟩
      | queried l =>
          exact Or.inr ⟨source, w, rfl, rfl,
            Or.inr (Or.inr (Or.inr ⟨l, hph, rfl⟩))⟩
      | done t => exact Or.inl rfl

@[simp] theorem stepAtTop_scraped (cfg : EngineCfg) (st : EngineState)
    (i : Nat) (w : WorkerState) :
    (stepAtTop cfg st i w).scraped_keywords = st.scraped_keywords := by
  unfold stepAtTop; split
  · rfl
  · split <;> rfl

@[simp] theorem stepAtTop_processed (cfg : EngineCfg) (st : EngineState)
    (i : Nat) (w : WorkerState) :
    (stepAtTop cfg st i w).processed = st.processed := by
  unfold stepAtTop; split
  · rfl
  · split <;> rfl

@[simp] theorem stepAtTop_sink (cfg : EngineCfg) (st : EngineState)
    (i : Nat) (w : WorkerState) :
    (stepAtTop cfg st i w).sink = st.sink := by
  unfold stepAtTop; split
  · rfl
  · split <;> rfl

@[simp] theorem stepAtTop_enqueued (cfg : EngineCfg) (st : EngineState)
    (i : Nat) (w : WorkerState) :
    (stepAtTop cfg st i w).enqueued = st.enqueued := by
  unfold stepAtTop; split
  · rfl
  · split <;> rfl

@[simp] theorem stepAtTop_stop (cfg : EngineCfg) (st : EngineState)
    (i : Nat) (w : WorkerState) :
    (stepAtTop cfg st i w).stopEvent = st.stopEvent := by
  unfold stepAtTop; split
  · rfl
  · split <;> rfl

@[simp] theorem stepHolding_queue (st : EngineState) (i : Nat)
    (w : WorkerState) (k : String) :
    (stepHolding st i w k).keyword_queue = st.keyword_queue := by
  unfold stepHolding; split <;> rfl

@[simp] theorem stepHolding_sink (st : EngineState) (i : Nat)
    (w : WorkerState) (k : String) :
    (stepHolding st i w k).sink = st.sink := by
  unfold stepHolding; split <;> rfl

@[simp] theorem stepHolding_enqueued (st : EngineState) (i : Nat)
    (w : WorkerState) (k : String) :
    (stepHolding st i w k).enqueued = st.enqueued := by
  unfold stepHolding; split <;> rfl

@[simp] theorem stepHolding_stop (st : EngineState) (i : Nat)
    (w : WorkerState) (k : String) :
    (stepHolding st i w k).stopEvent = st.stopEvent := by
  unfold stepHolding; split <;> rfl

@[simp] theorem stepAdmitted_queue (st : EngineState) (i : Nat)
    (source : String → SourceResp) (w : WorkerState) (k : String) :
    (stepAdmitted st i source w k).keyword_queue = st.keyword_queue := rfl
@[simp] theorem stepAdmitted_scraped (st : EngineState) (i : Nat)
    (source : String → SourceResp) (w : WorkerState) (k : String) :
    (stepAdmitted st i source w k).scraped_keywords = st.scraped_keywords := rfl
@[simp] theorem stepAdmitted_processed (st : EngineState) (i : Nat)
    (source : String → SourceResp) (w : WorkerState) (k : String) :
    (stepAdmitted st i source w k).processed = st.processed := rfl
@[simp] theorem stepAdmitted_sink (st : EngineState) (i : Nat)
    (source : String → SourceResp) (w : WorkerState) (k : String) :
    (stepAdmitted st i source w k).sink = st.sink := rfl
@[simp] theorem stepAdmitted_enqueued (st : EngineState) (i : Nat)
    (source : String → SourceResp) (w : WorkerState) (k : String) :
    (stepAdmitted st i source w k).enqueued = st.enqueued := rfl
@[simp] theorem stepAdmitted_stop (st : EngineState) (i : Nat)
    (source : String → SourceResp) (w : WorkerState) (k : String) :
    (stepAdmitted st i source w k).stopEvent = st.stopEvent := rfl

@[simp] theorem stepQueried_scraped (st : EngineState) (i : Nat)
    (w : WorkerState) (l : List String) :
    (stepQueried st i w l).scraped_keywords = st.scraped_keywords := by
  unfold stepQueried; split
  · rfl
  · rw [setWorker_scraped, discoverSuggestions_scraped]

@[simp] theorem stepQueried_processed (st : EngineState) (i : Nat)
    (w : WorkerState) (l : List String) :
    (stepQueried st i w l).processed = st.processed := by
  unfold stepQueried; split
  · rfl
  · rw [setWorker_processed, discoverSuggestions_processed]

@[simp] theorem stepQueried_stop (st : EngineState) (i : Nat)
    (w : WorkerState) (l : List String) :
    (stepQueried st i w l).stopEvent = st.stopEvent := by
  unfold stepQueried; split
  · rfl
  · rw [setWorker_stop, discoverSuggestions_stop]

/-- No micro-step raises or clears the stop event (it is set only by the
external `KeyboardInterrupt` handler, which is outside the engine). -/
theorem worker_step_stop (cfg : EngineCfg) (st : EngineState) (i : Nat) :
    (worker_step cfg st i).stopEvent = st.stopEvent := by
  rcases worker_step_cases cfg st i with he | ⟨source, w, hs, hw, hc⟩
  · rw [he]
  · rcases hc with ⟨_, he⟩ | ⟨k, _, he⟩ | ⟨k, _, he⟩ | ⟨l, _, he⟩ <;> rw [he] <;> simp

/-- Every micro-step preserves the number of workers. -/
theorem worker_step_workers_length (cfg : EngineCfg) (st : EngineState)
    (i : Nat) : (worker_step cfg st i).workers.length = st.workers.length := by
  rcases worker_step_cases cfg st i with he | ⟨source, w, hs, hw, hc⟩
  · rw [he]
  · rcases hc with ⟨_, he⟩ | ⟨k, _, he⟩ | ⟨k, _, he⟩ | ⟨l, _, he⟩ <;> rw [he]
    · unfold stepAtTop; split
      · simp
      · split <;> simp
    · unfold stepHolding; split <;> simp
    · unfold stepAdmitted; simp
    · unfold stepQueried; split <;> simp

/-- The scraped set only grows: anything in it stays in it. -/
theorem worker_step_scraped_mono (cfg : EngineCfg) (st : EngineState)
    (i : Nat) (k : String) (hk : k ∈ st.scraped_keywords) :
    k ∈ (worker_step cfg st i).scraped_keywords := by
  rcases worker_step_cases cfg st i with he | ⟨source, w, hs, hw, hc⟩
  · rw [he]; exact hk
  · rcases hc with ⟨_, he⟩ | ⟨k', _, he⟩ | ⟨k', _, he⟩ | ⟨l, _, he⟩ <;> rw [he]
    · simpa using hk
    · unfold stepHolding; split
      · simpa using hk
      · simp only [setWorker_scraped]
        exact List.mem_cons_of_mem _ hk
    · simpa using hk
    · simpa using hk

/-! ### C1: admission of keywords into the frontier -/

/-- Invariant behind the amended C1: the keywords that passed the
pop-time test-and-insert are pairwise distinct and all recorded in the
scraped set. -/
def ProcessedInv (st : EngineState) : Prop :=
  st.processed.Nodup ∧ ∀ k ∈ st.processed, k ∈ st.scraped_keywords

theorem processedInv_step (cfg : EngineCfg) (st : EngineState) (i : Nat)
    (h : ProcessedInv st) : ProcessedInv (worker_step cfg st i) := by
  rcases worker_step_cases cfg st i with he | ⟨source, w, hs, hw, hc⟩
  · rw [he]; exact h
  · rcases hc with ⟨_, he⟩ | ⟨k, _, he⟩ | ⟨k, _, he⟩ | ⟨l, _, he⟩ <;> rw [he]
    · unfold ProcessedInv at *
      rw [stepAtTop_processed, stepAtTop_scraped]; exact h
    · unfold ProcessedInv at *
      unfold stepHolding
      split
      · simpa using h
      · next hk =>
          constructor
          · show (k :: st.processed).Nodup
            rw [List.nodup_cons]
            exact ⟨fun hmem => hk (h.2 k hmem), h.1⟩
          · intro x hx
            show x ∈ k :: st.scraped_keywords
            rcases List.mem_cons.1 hx with hx | hx
            · exact List.mem_cons.2 (Or.inl hx)
            · exact List.mem_cons.2 (Or.inr (h.2 x hx))
    · unfold ProcessedInv at *
      rw [stepAdmitted_processed, stepAdmitted_scraped]; exact h
    · unfold ProcessedInv at *
      rw [stepQueried_processed, stepQueried_scraped]; exact h

/-- C1 (amended): in the code, seed keywords are enqueued with no dedup
check at all (`start_scraping` lines 1066-1068) and worker-discovered
suggestions with only a membership test and no insertion (line 1013), so
a keyword text can be enqueued more than once; the atomic
membership-test-and-insert is instead performed by the worker after
popping a keyword and before querying it (lines 996-999), so each
keyword text is processed (queried) at most once per run, under every
schedule of the workers' atomic blocks. -/
theorem keyword_processed_at_most_once (cfg : EngineCfg)
    (seedLines : List String) (sched : List Nat) :
    (runEngine cfg (initEngine cfg seedLines) sched).processed.Nodup := by
  have h0 : ProcessedInv (initEngine cfg seedLines) := by
    constructor
    · show List.Nodup []
      exact List.nodup_nil
    · intro k hk
      exact absurd hk (by show k ∉ ([] : List String); simp)
  exact (runEngine_inv cfg ProcessedInv (fun st i => processedInv_step cfg st i)
    sched _ h0).1

/-- The configuration used by the concrete counterexample runs: a single
selected engine whose upstream always fails with a network error, default
`max_keywords_per_engine = 1000`. -/
def cfgNet : EngineCfg := ⟨[fun _ => SourceResp.netError], 1000⟩

/-- C1 is false as stated: with seed input "a, a" (two equal seed
keywords, as `get_seed_keywords` happily returns), `start_scraping`
enqueues the same keyword text twice — no Dedup Set check guards the
seeding path. -/
theorem seed_enqueued_twice :
    (initEngine cfgNet ["a", "a"]).enqueued.count "a" = 2 := by decide

/-! ### C2: sink writes per keyword -/

theorem admitSuggestion_sink_count (s : EngineState) (a k : String)
    (hk : k ∈ s.scraped_keywords) :
    ((admitSuggestion s a).sink).count k = s.sink.count k := by
  unfold admitSuggestion
  split
  · next h =>
      have hak : a ≠ k := fun he => h.1 (he ▸ hk)
      show (s.sink ++ [a]).count k = s.sink.count k
      rw [List.count_append]
      simp [List.count_cons, hak]
  · rfl

theorem discoverSuggestions_sink_count (l : List String) :
    ∀ (st : EngineState) (k : String), k ∈ st.scraped_keywords →
      ((discoverSuggestions st l).sink).count k = st.sink.count k := by
  induction l with
  | nil => intro st k hk; rfl
  | cons a t ih =>
      intro st k hk
      rw [discoverSuggestions_cons]
      rw [ih (admitSuggestion st a) k (by rw [admitSuggestion_scraped]; exact hk)]
      exact admitSuggestion_sink_count st a k hk

theorem worker_step_sink_count (cfg : EngineCfg) (st : EngineState) (i : Nat)
    (k : String) (hk : k ∈ st.scraped_keywords) :
    ((worker_step cfg st i).sink).count k = st.sink.count k := by
  rcases worker_step_cases cfg st i with he | ⟨source, w, hs, hw, hc⟩
  · rw [he]
  · rcases hc with ⟨_, he⟩ | ⟨k', _, he⟩ | ⟨k', _, he⟩ | ⟨l, _, he⟩ <;> rw [he]
    · rw [stepAtTop_sink]
    · rw [stepHolding_sink]
    · rw [stepAdmitted_sink]
    · unfold stepQueried
      split
      · rfl
      · rw [setWorker_sink]
        exact discoverSuggestions_sink_count l st k hk

theorem runEngine_sink_count (cfg : EngineCfg) (sched : List Nat) :
    ∀ (st : EngineState) (k : String), k ∈ st.scraped_keywords →
      ((runEngine cfg st sched).sink).count k = st.sink.count k := by
  induction sched with
  | nil => intro st k hk; rfl
  | cons j t ih =>
      intro st k hk
      rw [runEngine_cons]
      rw [ih (worker_step cfg st j) k (worker_step_scraped_mono cfg st j k hk)]
      exact worker_step_sink_count cfg st j k hk

/-- C2 (amended): a keyword that has entered the scraped set (i.e. has
been popped and processed by some worker) is never written to the sink
again; duplicate sink writes can only come from several discoveries that
all precede the keyword's first processing.  The discovery path (line
1013) tests membership in `scraped_keywords` but does not insert, so two
successive queries that both return a not-yet-processed suggestion each
trigger a `_save_keyword` call. -/
theorem no_sink_write_after_processing (cfg : EngineCfg)
    (seedLines : List String) (s₁ s₂ : List Nat) (k : String)
    (hk : k ∈ (runEngine cfg (initEngine cfg seedLines) s₁).scraped_keywords) :
    ((runEngine cfg (initEngine cfg seedLines) (s₁ ++ s₂)).sink).count k =
      ((runEngine cfg (initEngine cfg seedLines) s₁).sink).count k := by
  rw [runEngine_append]
  exact runEngine_sink_count cfg s₂ _ k hk

/-- The configuration of the duplicate-sink-write run: one engine whose
source suggests "x" for both seeds "a" and "b" and nothing else. -/
def srcXX : String → SourceResp := fun kw =>
  if kw = "a" ∨ kw = "b" then .ok ["x"] else .ok []

def cfgXX : EngineCfg := ⟨[srcXX], 1000⟩

/-- C2 is false as stated: with seeds "a" and "b" and a source answering
["x"] to both, the single worker saves "x" to the sink twice — the second
query rediscovers "x" while it is still queued and not yet in
`scraped_keywords`, and `_save_keyword` runs again. -/
theorem sink_write_twice :
    ((runEngine cfgXX (initEngine cfgXX ["a", "b"])
        (List.replicate 8 0)).sink).count "x" = 2 := by decide

/-- Witness for `no_sink_write_after_processing`: after "x" itself has
been processed (12 micro-steps), five further steps add no sink write. -/
theorem no_sink_write_after_processing_witness :
    "x" ∈ (runEngine cfgXX (initEngine cfgXX ["a", "b"])
        (List.replicate 12 0)).scraped_keywords ∧
    ((runEngine cfgXX (initEngine cfgXX ["a", "b"])
        (List.replicate 12 0 ++ List.replicate 5 0)).sink).count "x" =
      ((runEngine cfgXX (initEngine cfgXX ["a", "b"])
        (List.replicate 12 0)).sink).count "x" :=
  ⟨by decide, no_sink_write_after_processing cfgXX ["a", "b"]
    (List.replicate 12 0) (List.replicate 5 0) "x" (by decide)⟩

/-! ### C7: normalization of admitted keywords -/

theorem pyStrip_ne_empty_of_len (k : String) (h : 0 < (pyStrip k).length) :
    pyStrip k ≠ "" := by
  intro he
  rw [he] at h
  simp at h

/-- Seed keywords returned by `get_seed_keywords` are stripped, non-empty
and at most 200 characters long. -/
theorem get_seed_keywords_normalized (seedLines : List String) :
    ∀ kw ∈ get_seed_keywords seedLines,
      pyStrip kw = kw ∧ kw ≠ "" ∧ kw.length ≤ 200 := by
  intro kw hkw
  unfold get_seed_keywords at hkw
  rw [List.mem_filter] at hkw
  obtain ⟨hmem, hlen⟩ := hkw
  unfold parseSeedLines at hmem
  rw [List.mem_map] at hmem
  obtain ⟨l, hl, hkweq⟩ := hmem
  rw [List.mem_filter] at hl
  subst hkweq
  exact ⟨pyStrip_idem l, of_decide_eq_true hl.2, of_decide_eq_true hlen⟩

/-- Invariant behind the amended C7: everything ever enqueued or saved
has non-empty stripped text. -/
def NormInv (st : EngineState) : Prop :=
  (∀ k ∈ st.enqueued, pyStrip k ≠ "") ∧ (∀ k ∈ st.sink, pyStrip k ≠ "")

theorem admitSuggestion_norm (s : EngineState) (a : String) (h : NormInv s) :
    NormInv (admitSuggestion s a) := by
  unfold admitSuggestion
  split
  · next hcond =>
      constructor
      · intro k hk
        have hk' : k ∈ s.enqueued ++ [a] := hk
        rcases List.mem_append.1 hk' with hm | hm
        · exact h.1 k hm
        · have hka : k = a := by simpa using hm
          subst hka
          exact pyStrip_ne_empty_of_len k hcond.2
      · intro k hk
        have hk' : k ∈ s.sink ++ [a] := hk
        rcases List.mem_append.1 hk' with hm | hm
        · exact h.2 k hm
        · have hka : k = a := by simpa using hm
          subst hka
          exact pyStrip_ne_empty_of_len k hcond.2
  · exact h

theorem discoverSuggestions_norm (l : List String) :
    ∀ st : EngineState, NormInv st → NormInv (discoverSuggestions st l) := by
  induction l with
  | nil => intro st h; exact h
  | cons a t ih =>
      intro st h
      rw [discoverSuggestions_cons]
      exact ih _ (admitSuggestion_norm st a h)

theorem normInv_step (cfg : EngineCfg) (st : EngineState) (i : Nat)
    (h : NormInv st) : NormInv (worker_step cfg st i) := by
  rcases worker_step_cases cfg st i with he | ⟨source, w, hs, hw, hc⟩
  · rw [he]; exact h
  · rcases hc with ⟨_, he⟩ | ⟨k, _, he⟩ | ⟨k, _, he⟩ | ⟨l, _, he⟩ <;> rw [he]
    · unfold NormInv at *
      rw [stepAtTop_enqueued, stepAtTop_sink]; exact h
    · unfold NormInv at *
      rw [stepHolding_enqueued, stepHolding_sink]; exact h
    · unfold NormInv at *
      rw [stepAdmitted_enqueued, stepAdmitted_sink]; exact h
    · unfold stepQueried
      split
      · exact h
      · unfold NormInv at *
        rw [setWorker_enqueued, setWorker_sink]
        exact discoverSuggestions_norm l st h

/-- C7 (amended): seed keywords are normalized (stripped, non-empty, at
most 200 characters), but worker-discovered suggestions are admitted to
the frontier and the sink whenever their stripped text is non-empty
(line 1013): the suggestion text itself is neither stripped nor
length-capped on admission.  What holds for every admitted keyword, seed
or suggestion, is only that its stripped text is non-empty. -/
theorem admitted_keywords_normalization (cfg : EngineCfg)
    (seedLines : List String) (sched : List Nat) :
    (∀ kw ∈ get_seed_keywords seedLines,
        pyStrip kw = kw ∧ kw ≠ "" ∧ kw.length ≤ 200) ∧
    (∀ k ∈ (runEngine cfg (initEngine cfg seedLines) sched).enqueued,
        pyStrip k ≠ "") ∧
    (∀ k ∈ (runEngine cfg (initEngine cfg seedLines) sched).sink,
        pyStrip k ≠ "") := by
  have hseeds := get_seed_keywords_normalized seedLines
  have h0 : NormInv (initEngine cfg seedLines) := by
    constructor
    · intro k hk
      have hk' : k ∈ get_seed_keywords seedLines := hk
      obtain ⟨hst, hne, _⟩ := hseeds k hk'
      rw [hst]; exact hne
    · intro k hk
      exact absurd hk (by show k ∉ ([] : List String); simp)
  have hrun := runEngine_inv cfg NormInv (fun st i => normInv_step cfg st i)
    sched _ h0
  exact ⟨hseeds, hrun.1, hrun.2⟩

/-- A 201-character keyword. -/
def longKw : String := ⟨List.replicate 201 'x'⟩

/-- The configuration of the unnormalized-admission run: the source
answers seed "a" with an untrimmed suggestion and an over-length one. -/
def srcBad : String → SourceResp := fun kw =>
  if kw = "a" then .ok [" b", longKw] else .ok []

def cfgBad : EngineCfg := ⟨[srcBad], 1000⟩

set_option maxRecDepth 20000

/-- C7 is false as stated: a suggestion with leading whitespace and a
201-character suggestion are both admitted to the sink (and the queue)
untouched — the discovery path checks only that the stripped text is
non-empty, and neither strips nor length-caps the stored text. -/
theorem unnormalized_suggestion_admitted :
    (" b" ∈ (runEngine cfgBad (initEngine cfgBad ["a"])
        (List.replicate 4 0)).sink ∧ pyStrip " b" ≠ " b") ∧
    (longKw ∈ (runEngine cfgBad (initEngine cfgBad ["a"])
        (List.replicate 4 0)).sink ∧ 200 < longKw.length) := by decide

/-- Witness for `admitted_keywords_normalization` at a concrete input. -/
theorem admitted_keywords_normalization_witness :
    pyStrip "a" = "a" ∧ "a" ≠ "" ∧ ("a" : String).length ≤ 200 :=
  (admitted_keywords_normalization cfgNet ["a"] []).1 "a" (by decide)

/-! ### C8: no self-echo in client results -/

theorem googleKeepItem_ne (keyword : String) (it : GItem) (s : String)
    (h : googleKeepItem keyword it = some s) : s ≠ keyword := by
  cases it with
  | str s' =>
      simp only [googleKeepItem] at h
      split at h
      · next hne =>
          rw [Option.some.injEq] at h
          subst h
          exact hne
      · simp at h
  | other => simp [googleKeepItem] at h

theorem ddgKeepItem_ne (keyword : String) (it : DItem) (s : String)
    (h : ddgKeepItem keyword it = some s) : s ≠ keyword := by
  cases it with
  | phraseObj p =>
      simp only [ddgKeepItem] at h
      split at h
      · next hne =>
          rw [Option.some.injEq] at h
          subst h
          exact hne
      · simp at h
  | plainStr s' =>
      simp only [ddgKeepItem] at h
      split at h
      · next hne =>
          rw [Option.some.injEq] at h
          subst h
          exact hne
      · simp at h
  | other => simp [ddgKeepItem] at h

theorem google_extract_no_echo (keyword : String) (d : GData) :
    keyword ∉ googleExtract keyword d := by
  intro hmem
  cases d with
  | shortOrNonList => simp [googleExtract] at hmem
  | withList items =>
      have hmem2 : keyword ∈ items.filterMap (googleKeepItem keyword) :=
        List.take_subset 20 _ hmem
      rw [List.mem_filterMap] at hmem2
      obtain ⟨it, _, hit⟩ := hmem2
      exact googleKeepItem_ne keyword it keyword hit rfl

theorem ddg_extract_no_echo (keyword : String) (d : DData) :
    keyword ∉ ddgExtract keyword d := by
  intro hmem
  cases d with
  | nonListOrShort => simp [ddgExtract] at hmem
  | tailItems items =>
      have hmem2 : keyword ∈ items.filterMap (ddgKeepItem keyword) :=
        List.take_subset 20 _ hmem
      rw [List.mem_filterMap] at hmem2
      obtain ⟨it, _, hit⟩ := hmem2
      exact ddgKeepItem_ne keyword it keyword hit rfl

/-- C8: for every queried keyword and every upstream response, the
suggestion list returned by `get_suggestions` never contains the queried
keyword itself — both the Google and the DuckDuckGo client filter their
own echo of the query out of the results. -/
theorem get_suggestions_no_self_echo (keyword : String) (gresp : GoogleResp)
    (dresp : DDGResp) :
    keyword ∉ (google_get_suggestions keyword gresp).1 ∧
    keyword ∉ (ddg_get_suggestions keyword dresp).1 := by
  constructor
  · intro hmem
    unfold google_get_suggestions at hmem
    split at hmem
    · split at hmem
      · exact google_extract_no_echo keyword _ hmem
      · simp at hmem
    · simp at hmem
  · intro hmem
    unfold ddg_get_suggestions at hmem
    split at hmem
    · split at hmem
      · exact ddg_extract_no_echo keyword _ hmem
      · simp at hmem
    · simp at hmem

/-! ### C9: sink write failures are swallowed -/

/-- C9: `_save_keyword` never raises to the calling worker: for every
combination of `save_to_file` and write success/failure it returns
normally (`Except.ok`), the dedup set is untouched, and the output file
gains the keyword exactly when saving is enabled and the write succeeds
(a failed write is logged and changes nothing). -/
theorem save_keyword_never_raises (saveToFile writeOk : Bool)
    (st : SinkState) (keyword : String) :
    ∃ st', save_keyword saveToFile writeOk st keyword = Except.ok st' ∧
      st'.scraped_keywords = st.scraped_keywords ∧
      st'.sinkFile =
        (if saveToFile && writeOk then st.sinkFile ++ [keyword]
         else st.sinkFile) := by
  cases saveToFile <;> cases writeOk <;> exact ⟨_, rfl, rfl, rfl⟩

/-! ### The effect of one query on a worker's counters (C6, C10) -/

theorem worker_step_eq_dispatch (cfg : EngineCfg) (st : EngineState) (i : Nat)
    (source : String → SourceResp) (w : WorkerState)
    (hs : cfg.sources[i]? = some source) (hw : st.workers[i]? = some w) :
    worker_step cfg st i = dispatchPhase cfg st i source w w.phase := by
  unfold worker_step
  rw [hs, hw]

/-- Executing the query block and then the accounting block for a worker
sitting at the query of keyword `keyword`: the worker returns to the loop
top, `scraped_count` grows by one, and `consecutive_failures` is
incremented on an empty result and reset to zero otherwise (lines
1004-1020). -/
theorem query_then_account (cfg : EngineCfg) (st : EngineState) (i : Nat)
    (source : String → SourceResp) (w : WorkerState) (keyword : String)
    (hs : cfg.sources[i]? = some source) (hw : st.workers[i]? = some w)
    (hph : w.phase = .admitted keyword) :
    ∃ w', (worker_step cfg (worker_step cfg st i) i).workers[i]? = some w' ∧
      w'.phase = .atLoopTop ∧
      w'.scraped_count = w.scraped_count + 1 ∧
      w'.consecutive_failures =
        (if client_get_suggestions source keyword = [] then
          w.consecutive_failures + 1 else 0) := by
  have hlen : i < st.workers.length := by
    rcases List.getElem?_eq_some.1 hw with ⟨h, _⟩; exact h
  have h1 : worker_step cfg st i = stepAdmitted st i source w keyword := by
    rw [worker_step_eq_dispatch cfg st i source w hs hw, hph]
    rfl
  have hw1 : (worker_step cfg st i).workers[i]? =
      some { w with phase := .queried (client_get_suggestions source keyword) } := by
    rw [h1]
    unfold stepAdmitted
    rw [setWorker_workers, List.getElem?_set]
    simp [hlen]
  have h2 : worker_step cfg (worker_step cfg st i) i =
      stepQueried (worker_step cfg st i) i
        { w with phase := .queried (client_get_suggestions source keyword) }
        (client_get_suggestions source keyword) := by
    rw [worker_step_eq_dispatch cfg _ i source _ hs hw1]
    rfl
  have hlen1 : i < (worker_step cfg st i).workers.length := by
    rw [worker_step_workers_length]; exact hlen
  rw [h2]
  unfold stepQueried
  by_cases hemp : (client_get_suggestions source keyword).isEmpty
  · rw [if_pos hemp]
    refine ⟨⟨.atLoopTop, w.scraped_count + 1, w.consecutive_failures + 1⟩,
      ?_, rfl, rfl, ?_⟩
    · rw [setWorker_workers, List.getElem?_set]
      simp [hlen1]
    · rw [if_pos (List.isEmpty_iff.1 hemp)]
  · rw [if_neg hemp]
    refine ⟨⟨.atLoopTop, w.scraped_count + 1, 0⟩, ?_, rfl, rfl, ?_⟩
    · rw [setWorker_workers, List.getElem?_set]
      simp [hlen1]
    · rw [if_neg (fun h => hemp (by rw [h]; rfl))]

/-- A query whose upstream fails or returns nothing yields `[]` from the
client (lines 390-397 swallow the exceptions; a zero-suggestion payload
is already `[]`). -/
theorem client_get_suggestions_empty (source : String → SourceResp)
    (keyword : String)
    (h : source keyword = .netError ∨ source keyword = .parseError ∨
      source keyword = .ok []) :
    client_get_suggestions source keyword = [] := by
  unfold client_get_suggestions
  split
  · rcases h with h | h | h <;> rw [h]
  · rfl

/-- C6: for a worker about to query `keyword`, the two micro-steps of the
query and its accounting reset `consecutive_failures` to zero exactly
when the client returned a non-empty suggestion list, and increment it by
exactly one otherwise; a network error, a parse error and a
zero-suggestion payload all yield the same empty client result and hence
each count as one failure.  Errors raised inside the Google client's
query are internal (`googleFetch` is an `error`) and never escape: the
client still returns a plain (empty) list. -/
theorem failure_counter_semantics (cfg : EngineCfg) (st : EngineState)
    (i : Nat) (source : String → SourceResp) (w : WorkerState)
    (keyword : String)
    (hs : cfg.sources[i]? = some source) (hw : st.workers[i]? = some w)
    (hph : w.phase = .admitted keyword) :
    ∃ w', (worker_step cfg (worker_step cfg st i) i).workers[i]? = some w' ∧
      (client_get_suggestions source keyword ≠ [] →
        w'.consecutive_failures = 0) ∧
      (client_get_suggestions source keyword = [] →
        w'.consecutive_failures = w.consecutive_failures + 1) ∧
      ((source keyword = .netError ∨ source keyword = .parseError ∨
          source keyword = .ok []) →
        w'.consecutive_failures = w.consecutive_failures + 1) ∧
      (∃ e, googleFetch GoogleResp.netError = .error e) ∧
      (∃ e, googleFetch GoogleResp.jsonError = .error e) ∧
      (google_get_suggestions keyword GoogleResp.netError).1 = [] ∧
      (google_get_suggestions keyword GoogleResp.jsonError).1 = [] := by
  obtain ⟨w', hw', hphase, hcount, hfails⟩ :=
    query_then_account cfg st i source w keyword hs hw hph
  refine ⟨w', hw', ?_, ?_, ?_, ⟨_, rfl⟩, ⟨_, rfl⟩, ?_, ?_⟩
  · intro hne
    rw [hfails, if_neg hne]
  · intro he
    rw [hfails, if_pos he]
  · intro hsrc
    rw [hfails, if_pos (client_get_suggestions_empty source keyword hsrc)]
  · unfold google_get_suggestions
    split <;> rfl
  · unfold google_get_suggestions
    split <;> rfl

/-! ### C10: invalid keywords are rejected without a request -/

theorem validate_keyword_eq_false (keyword : String)
    (hbad : pyStrip keyword = "" ∨ 200 < (pyStrip keyword).length) :
    validate_keyword keyword = false := by
  rcases hbad with h | h
  · simp [validate_keyword, h]
  · by_cases h0 : (keyword == "" || pyStrip keyword == "") = true
    · simp [validate_keyword, h0]
    · simp [validate_keyword, h0, h]

/-- C10: a keyword whose stripped text is empty or longer than 200
characters is rejected by `_validate_keyword`, so `get_suggestions`
returns the empty list without issuing any HTTP request (request count
0), for the Google and DuckDuckGo clients and for the abstract client the
worker calls; consequently, when such a keyword reaches a worker from the
queue, the query block behaves exactly like a failed query: the worker's
`consecutive_failures` is incremented by one. -/
theorem invalid_keyword_counts_as_failure (keyword : String)
    (hbad : pyStrip keyword = "" ∨ 200 < (pyStrip keyword).length) :
    (∀ gresp, google_get_suggestions keyword gresp = ([], 0)) ∧
    (∀ dresp, ddg_get_suggestions keyword dresp = ([], 0)) ∧
    (∀ source, client_get_suggestions source keyword = []) ∧
    (∀ (cfg : EngineCfg) (st : EngineState) (i : Nat)
        (source : String → SourceResp) (w : WorkerState),
      cfg.sources[i]? = some source → st.workers[i]? = some w →
      w.phase = .admitted keyword →
      ∃ w', (worker_step cfg (worker_step cfg st i) i).workers[i]? = some w' ∧
        w'.consecutive_failures = w.consecutive_failures + 1 ∧
        w'.scraped_count = w.scraped_count + 1) := by
  have hv := validate_keyword_eq_false keyword hbad
  have hclient : ∀ source, client_get_suggestions source keyword = [] := by
    intro source
    unfold client_get_suggestions
    rw [hv]
    simp
  refine ⟨?_, ?_, hclient, ?_⟩
  · intro gresp
    unfold google_get_suggestions
    rw [hv]
    simp
  · intro dresp
    unfold ddg_get_suggestions
    rw [hv]
    simp
  · intro cfg st i source w hs hw hph
    obtain ⟨w', hw', hphase, hcount, hfails⟩ :=
      query_then_account cfg st i source w keyword hs hw hph
    refine ⟨w', hw', ?_, hcount⟩
    rw [hfails, if_pos (hclient source)]

/-- A concrete state whose single worker is about to query keyword "a". -/
def stAdm : EngineState :=
  { keyword_queue := []
    scraped_keywords := ["a"]
    sink := []
    enqueued := ["a"]
    processed := ["a"]
    stopEvent := false
    workers := [⟨.admitted "a", 0, 0⟩] }

/-- Witness for `failure_counter_semantics`: a network error counts as
exactly one failure. -/
theorem failure_counter_semantics_witness :
    ∃ w', (worker_step cfgNet (worker_step cfgNet stAdm 0) 0).workers[0]? =
        some w' ∧ w'.consecutive_failures = 1 := by
  obtain ⟨w', hw', _, _, herr, _, _, _, _⟩ :=
    failure_counter_semantics cfgNet stAdm 0
      (fun _ => SourceResp.netError) ⟨.admitted "a", 0, 0⟩ "a" rfl rfl rfl
  exact ⟨w', hw', herr (Or.inl rfl)⟩

/-- Witness for `invalid_keyword_counts_as_failure`: a whitespace-only
keyword is rejected without a request. -/
theorem invalid_keyword_counts_as_failure_witness :
    (pyStrip "   " = "" ∨ 200 < (pyStrip "   ").length) ∧
    google_get_suggestions "   " GoogleResp.netError = ([], 0) := by
  have hbad : pyStrip "   " = "" ∨ 200 < (pyStrip "   ").length :=
    Or.inl (by decide)
  exact ⟨hbad,
    (invalid_keyword_counts_as_failure "   " hbad).1 GoogleResp.netError⟩

/-! ### C4: the per-engine cap -/

/-- Whether a worker is in the middle of one loop iteration (between the
`while` guard and the `scraped_count` increment). -/
def midIteration : WPhase → Bool
  | .holding _ => true
  | .admitted _ => true
  | .queried _ => true
  | _ => false

/-- The thread-local invariant of one worker: the counters never pass the
`while` guard's bounds, and mid-iteration the guard's strict bounds hold
(they were checked at the loop top and the counters only change at the
end of the iteration). -/
def WInv (cap : Nat) (w : WorkerState) : Prop :=
  w.scraped_count ≤ cap ∧
  w.consecutive_failures ≤ max_consecutive_failures ∧
  (midIteration w.phase = true →
    w.scraped_count < cap ∧ w.consecutive_failures < max_consecutive_failures)

def AllWInv (cap : Nat) (st : EngineState) : Prop := ∀ w ∈ st.workers, WInv cap w

theorem allWInv_set_aux (cap : Nat) (l : List WorkerState) (i : Nat)
    (w' : WorkerState) (h : ∀ w ∈ l, WInv cap w) (hw' : WInv cap w') :
    ∀ x ∈ l.set i w', WInv cap x := by
  intro x hx
  rcases List.mem_or_eq_of_mem_set hx with hm | he
  · exact h x hm
  · rw [he]; exact hw'

theorem allWInv_step (cfg : EngineCfg) (st : EngineState) (i : Nat)
    (h : AllWInv cfg.max_keywords_per_engine st) :
    AllWInv cfg.max_keywords_per_engine (worker_step cfg st i) := by
  rcases worker_step_cases cfg st i with he | ⟨source, w, hs, hw, hc⟩
  · rw [he]; exact h
  have hwmem : w ∈ st.workers := List.getElem?_mem hw
  have hwinv := h w hwmem
  rcases hc with ⟨hph, he⟩ | ⟨k, hph, he⟩ | ⟨k, hph, he⟩ | ⟨l, hph, he⟩ <;> rw [he]
  · unfold stepAtTop
    split
    · intro x hx
      refine allWInv_set_aux _ st.workers i _ h ?_ x hx
      exact ⟨hwinv.1, hwinv.2.1, by intro hmid; simp [midIteration] at hmid⟩
    · next hguard =>
        have hlt : w.scraped_count < cfg.max_keywords_per_engine ∧
            w.consecutive_failures < max_consecutive_failures := by
          constructor
          · by_contra hcon
            exact hguard (Or.inr (Or.inl (Nat.le_of_not_lt hcon)))
          · by_contra hcon
            exact hguard (Or.inr (Or.inr (Nat.le_of_not_lt hcon)))
        split
        · intro x hx
          refine allWInv_set_aux _ st.workers i _ h ?_ x hx
          exact ⟨hwinv.1, hwinv.2.1, by intro hmid; simp [midIteration] at hmid⟩
        · intro x hx
          refine allWInv_set_aux _ st.workers i _ h ?_ x hx
          exact ⟨hwinv.1, hwinv.2.1, fun _ => hlt⟩
  · have hstrict := hwinv.2.2 (by rw [hph]; rfl)
    unfold stepHolding
    split
    · intro x hx
      refine allWInv_set_aux _ st.workers i _ h ?_ x hx
      exact ⟨hwinv.1, hwinv.2.1, by intro hmid; simp [midIteration] at hmid⟩
    · intro x hx
      refine allWInv_set_aux _ st.workers i _ h ?_ x hx
      exact ⟨hwinv.1, hwinv.2.1, fun _ => hstrict⟩
  · have hstrict := hwinv.2.2 (by rw [hph]; rfl)
    unfold stepAdmitted
    intro x hx
    refine allWInv_set_aux _ st.workers i _ h ?_ x hx
    exact ⟨hwinv.1, hwinv.2.1, fun _ => hstrict⟩
  · have hstrict := hwinv.2.2 (by rw [hph]; rfl)
    unfold stepQueried
    split
    · intro x hx
      refine allWInv_set_aux _ st.workers i _ h ?_ x hx
      refine ⟨Nat.succ_le_of_lt hstrict.1, Nat.succ_le_of_lt hstrict.2, ?_⟩
      intro hmid; simp [midIteration] at hmid
    · intro x hx
      have hx' : x ∈ st.workers.set i
          { w with phase := .atLoopTop, consecutive_failures := 0,
                   scraped_count := w.scraped_count + 1 } := by
        rw [setWorker_workers, discoverSuggestions_workers] at hx
        exact hx
      refine allWInv_set_aux _ st.workers i _ h ?_ x hx'
      refine ⟨Nat.succ_le_of_lt hstrict.1, Nat.zero_le _, ?_⟩
      intro hmid; simp [midIteration] at hmid

theorem allWInv_init (cfg : EngineCfg) (seedLines : List String) :
    AllWInv cfg.max_keywords_per_engine (initEngine cfg seedLines) := by
  intro w hw
  simp only [initEngine] at hw
  rcases List.mem_map.1 hw with ⟨_, _, hweq⟩
  rw [← hweq]
  exact ⟨Nat.zero_le _, Nat.zero_le _,
    by intro hmid; simp [midIteration] at hmid⟩

theorem runEngine_workers_length (cfg : EngineCfg) (sched : List Nat) :
    ∀ st : EngineState,
      (runEngine cfg st sched).workers.length = st.workers.length := by
  induction sched with
  | nil => intro st; rfl
  | cons j t ih =>
      intro st
      rw [runEngine_cons, ih, worker_step_workers_length]

theorem initEngine_workers_length (cfg : EngineCfg) (seedLines : List String) :
    (initEngine cfg seedLines).workers.length = cfg.sources.length := by
  simp [initEngine]

@[simp] theorem dispatchPhase_top (cfg : EngineCfg) (st : EngineState)
    (i : Nat) (source : String → SourceResp) (w : WorkerState) :
    dispatchPhase cfg st i source w .atLoopTop = stepAtTop cfg st i w := rfl
@[simp] theorem dispatchPhase_holding (cfg : EngineCfg) (st : EngineState)
    (i : Nat) (source : String → SourceResp) (w : WorkerState) (k : String) :
    dispatchPhase cfg st i source w (.holding k) = stepHolding st i w k := rfl
@[simp] theorem dispatchPhase_admitted (cfg : EngineCfg) (st : EngineState)
    (i : Nat) (source : String → SourceResp) (w : WorkerState) (k : String) :
    dispatchPhase cfg st i source w (.admitted k) =
      stepAdmitted st i source w k := rfl
@[simp] theorem dispatchPhase_queried (cfg : EngineCfg) (st : EngineState)
    (i : Nat) (source : String → SourceResp) (w : WorkerState)
    (l : List String) :
    dispatchPhase cfg st i source w (.queried l) = stepQueried st i w l := rfl
@[simp] theorem dispatchPhase_done (cfg : EngineCfg) (st : EngineState)
    (i : Nat) (source : String → SourceResp) (w : WorkerState) (t : Terminal) :
    dispatchPhase cfg st i source w (.done t) = st := rfl

/-- C4: under every schedule, a worker's `scraped_count` never exceeds
`max_keywords_per_engine` no matter how many keywords remain queued; a
worker at its loop top whose count has reached the cap halts on its next
step; and each accounting step of a processed keyword increments the
count by exactly one. -/
theorem per_engine_cap_respected (cfg : EngineCfg) (seedLines : List String)
    (sched : List Nat) (i : Nat) (w : WorkerState)
    (hw : (runEngine cfg (initEngine cfg seedLines) sched).workers[i]? = some w) :
    w.scraped_count ≤ cfg.max_keywords_per_engine ∧
    (w.phase = .atLoopTop → cfg.max_keywords_per_engine ≤ w.scraped_count →
      ∃ w', (worker_step cfg (runEngine cfg (initEngine cfg seedLines) sched)
          i).workers[i]? = some w' ∧ w'.phase = .done .halted) ∧
    (∀ (st : EngineState) (w₂ : WorkerState) (l : List String)
        (source : String → SourceResp),
      cfg.sources[i]? = some source → st.workers[i]? = some w₂ →
      w₂.phase = .queried l →
      ∃ w₃, (worker_step cfg st i).workers[i]? = some w₃ ∧
        w₃.scraped_count = w₂.scraped_count + 1) := by
  have hall := runEngine_inv cfg (AllWInv cfg.max_keywords_per_engine)
    (fun st j => allWInv_step cfg st j) sched _ (allWInv_init cfg seedLines)
  refine ⟨(hall w (List.getElem?_mem hw)).1, ?_, ?_⟩
  · intro hph hcap
    have hleni : i <
        (runEngine cfg (initEngine cfg seedLines) sched).workers.length := by
      rcases List.getElem?_eq_some.1 hw with ⟨hh, _⟩; exact hh
    have hlens : i < cfg.sources.length := by
      rw [runEngine_workers_length, initEngine_workers_length] at hleni
      exact hleni
    have hsrc : cfg.sources[i]? = some cfg.sources[i] :=
      List.getElem?_eq_getElem hlens
    have hleni' : i <
        (runEngine cfg (initEngine cfg seedLines) sched).workers.length := by
      rcases List.getElem?_eq_some.1 hw with ⟨hh, _⟩; exact hh
    rw [worker_step_eq_dispatch cfg _ i _ w hsrc hw, hph, dispatchPhase_top]
    unfold stepAtTop
    rw [if_pos (Or.inr (Or.inl hcap))]
    refine ⟨⟨.done .halted, w.scraped_count, w.consecutive_failures⟩, ?_, rfl⟩
    rw [setWorker_workers, List.getElem?_set]
    simp [hleni']
  · intro st w₂ l source hs hw₂ hph
    have hlen2 : i < st.workers.length := by
      rcases List.getElem?_eq_some.1 hw₂ with ⟨hh, _⟩; exact hh
    rw [worker_step_eq_dispatch cfg st i source w₂ hs hw₂, hph,
      dispatchPhase_queried]
    unfold stepQueried
    split
    · refine ⟨⟨.atLoopTop, w₂.scraped_count + 1,
        w₂.consecutive_failures + 1⟩, ?_, rfl⟩
      rw [setWorker_workers, List.getElem?_set]
      simp [hlen2]
    · refine ⟨⟨.atLoopTop, w₂.scraped_count + 1, 0⟩, ?_, rfl⟩
      rw [setWorker_workers, List.getElem?_set]
      simp [hlen2]

/-- A run capped at one keyword per engine, with a source that keeps the
frontier non-empty. -/
def cfgCap : EngineCfg := ⟨[fun _ => SourceResp.ok ["b"]], 1⟩

/-- Witness for `per_engine_cap_respected`: the worker halts with
`scraped_count = 1` even though the queue is still non-empty. -/
theorem per_engine_cap_respected_witness :
    ∃ w, (runEngine cfgCap (initEngine cfgCap ["a"])
        (List.replicate 6 0)).workers[0]? = some w ∧
      w.scraped_count ≤ 1 ∧ w.phase = .done .halted ∧
      (runEngine cfgCap (initEngine cfgCap ["a"])
        (List.replicate 6 0)).keyword_queue ≠ [] := by
  have hw : (runEngine cfgCap (initEngine cfgCap ["a"])
      (List.replicate 6 0)).workers[0]? = some ⟨.done .halted, 1, 0⟩ := by
    decide
  exact ⟨_, hw,
    (per_engine_cap_respected cfgCap ["a"] (List.replicate 6 0) 0 _ hw).1,
    rfl, by decide⟩

/-! ### C3: the circuit breaker -/

theorem setWorker_getElem (st : EngineState) (i : Nat) (w' : WorkerState)
    (hlen : i < st.workers.length) :
    (setWorker st i w').workers[i]? = some w' := by
  rw [setWorker_workers, List.getElem?_set]
  simp [hlen]

theorem worker_step_workers_eq (cfg : EngineCfg) (st : EngineState) (j : Nat) :
    worker_step cfg st j = st ∨
    ∃ w', (worker_step cfg st j).workers = st.workers.set j w' := by
  rcases worker_step_cases cfg st j with he | ⟨source, w, hs, hw, hc⟩
  · exact Or.inl he
  rcases hc with ⟨_, he⟩ | ⟨k, _, he⟩ | ⟨k, _, he⟩ | ⟨l, _, he⟩ <;> rw [he]
  · unfold stepAtTop; split
    · exact Or.inr ⟨_, rfl⟩
    · split
      · exact Or.inr ⟨_, rfl⟩
      · exact Or.inr ⟨_, rfl⟩
  · unfold stepHolding; split
    · exact Or.inr ⟨_, rfl⟩
    · exact Or.inr ⟨_, rfl⟩
  · exact Or.inr ⟨_, rfl⟩
  · unfold stepQueried; split
    · exact Or.inr ⟨_, rfl⟩
    · exact Or.inr ⟨_, by rw [setWorker_workers, discoverSuggestions_workers]⟩

/-- A step of worker `j` does not touch the thread-local state of a
different worker `i`. -/
theorem worker_step_other (cfg : EngineCfg) (st : EngineState) (i j : Nat)
    (hne : j ≠ i) : (worker_step cfg st j).workers[i]? = st.workers[i]? := by
  rcases worker_step_workers_eq cfg st j with he | ⟨w', hw'⟩
  · rw [he]
  · rw [hw', List.getElem?_set, if_neg hne]

/-- A worker whose loop has ended never runs again: its thread-local
state is frozen for the rest of the run (no automatic reset). -/
theorem worker_step_done_frozen (cfg : EngineCfg) (st : EngineState)
    (i j : Nat) (w : WorkerState) (t : Terminal)
    (hw : st.workers[i]? = some w) (hph : w.phase = .done t) :
    (worker_step cfg st j).workers[i]? = some w := by
  by_cases hji : j = i
  · subst hji
    rcases worker_step_cases cfg st j with he | ⟨source, w₂, hs₂, hw₂, hc⟩
    · rw [he]; exact hw
    · have hweq : w₂ = w := by
        rw [hw] at hw₂
        exact (Option.some.inj hw₂).symm
      rcases hc with ⟨hph₂, _⟩ | ⟨k, hph₂, _⟩ | ⟨k, hph₂, _⟩ | ⟨l, hph₂, _⟩ <;>
        rw [hweq, hph] at hph₂ <;> exact absurd hph₂ (by simp)
  · rw [worker_step_other cfg st i j hji]
    exact hw

theorem runEngine_done_frozen (cfg : EngineCfg) (sched : List Nat) :
    ∀ (st : EngineState) (i : Nat) (w : WorkerState) (t : Terminal),
      st.workers[i]? = some w → w.phase = .done t →
      (runEngine cfg st sched).workers[i]? = some w := by
  induction sched with
  | nil => intro st i w t hw _; exact hw
  | cons j rest ih =>
      intro st i w t hw hph
      rw [runEngine_cons]
      exact ih _ i w t (worker_step_done_frozen cfg st i j w t hw hph) hph

theorem runEngine_stop (cfg : EngineCfg) (sched : List Nat) :
    ∀ st : EngineState, (runEngine cfg st sched).stopEvent = st.stopEvent := by
  induction sched with
  | nil => intro st; rfl
  | cons j rest ih =>
      intro st
      rw [runEngine_cons, ih, worker_step_stop]

/-- Invariant behind C3 for a worker `i` whose source always yields an
empty client result: its failure counter always equals its processed
count, a pending query result is always empty, and a `halted` exit
records which guard failed. -/
def BreakerInv (cap : Nat) (i : Nat) (st : EngineState) : Prop :=
  ∀ w, st.workers[i]? = some w →
    w.consecutive_failures = w.scraped_count ∧
    (∀ l, w.phase = .queried l → l = []) ∧
    (w.phase = .done .halted →
      st.stopEvent = true ∨ cap ≤ w.scraped_count ∨
        max_consecutive_failures ≤ w.consecutive_failures)

theorem breakerInv_step (cfg : EngineCfg) (st : EngineState) (j i : Nat)
    (source : String → SourceResp) (hs : cfg.sources[i]? = some source)
    (hfail : ∀ kw, client_get_suggestions source kw = [])
    (h : BreakerInv cfg.max_keywords_per_engine i st) :
    BreakerInv cfg.max_keywords_per_engine i (worker_step cfg st j) := by
  by_cases hji : j = i
  case neg =>
    intro w hw
    rw [worker_step_other cfg st i j hji] at hw
    have hp := h w hw
    exact ⟨hp.1, hp.2.1, fun hph => by rw [worker_step_stop]; exact hp.2.2 hph⟩
  case pos =>
    subst hji
    rcases worker_step_cases cfg st j with he | ⟨source₂, w, hs₂, hw, hc⟩
    · rw [he]; exact h
    have hsrceq : source₂ = source := by
      rw [hs] at hs₂
      exact (Option.some.inj hs₂).symm
    have hlen : j < st.workers.length := by
      rcases List.getElem?_eq_some.1 hw with ⟨hh, _⟩; exact hh
    have hp := h w hw
    rcases hc with ⟨hph, he⟩ | ⟨k, hph, he⟩ | ⟨k, hph, he⟩ | ⟨l, hph, he⟩ <;> rw [he]
    · unfold stepAtTop
      split
      · next hguard =>
          intro w'' hw''
          rw [setWorker_getElem st j _ hlen] at hw''
          rw [← Option.some.inj hw'']
          refine ⟨hp.1, ?_, ?_⟩
          · intro l hl; exact absurd hl (by simp)
          · intro _
            rw [setWorker_stop]
            rcases hguard with hg | hg
            · exact Or.inl hg
            · exact Or.inr hg
      · split
        · intro w'' hw''
          rw [setWorker_getElem st j _ hlen] at hw''
          rw [← Option.some.inj hw'']
          refine ⟨hp.1, ?_, ?_⟩
          · intro l hl; exact absurd hl (by simp)
          · intro hl; exact absurd hl (by simp)
        · intro w'' hw''
          have hw''2 : (setWorker st j
              { w with phase := .holding _ }).workers[j]? = some w'' := hw''
          rw [setWorker_getElem st j _ hlen] at hw''2
          rw [← Option.some.inj hw''2]
          refine ⟨hp.1, ?_, ?_⟩
          · intro l hl; exact absurd hl (by simp)
          · intro hl; exact absurd hl (by simp)
    · unfold stepHolding
      split
      · intro w'' hw''
        rw [setWorker_getElem st j _ hlen] at hw''
        rw [← Option.some.inj hw'']
        refine ⟨hp.1, ?_, ?_⟩
        · intro l hl; exact absurd hl (by simp)
        · intro hl; exact absurd hl (by simp)
      · intro w'' hw''
        have hw''2 : (setWorker st j
            { w with phase := .admitted k }).workers[j]? = some w'' := hw''
        rw [setWorker_getElem st j _ hlen] at hw''2
        rw [← Option.some.inj hw''2]
        refine ⟨hp.1, ?_, ?_⟩
        · intro l hl; exact absurd hl (by simp)
        · intro hl; exact absurd hl (by simp)
    · unfold stepAdmitted
      intro w'' hw''
      rw [setWorker_getElem st j _ hlen] at hw''
      rw [← Option.some.inj hw'']
      refine ⟨hp.1, ?_, ?_⟩
      · intro l hl
        have : client_get_suggestions source₂ k = l := by
          simpa using hl
        rw [← this, hsrceq]
        exact hfail k
      · intro hl; exact absurd hl (by simp)
    · have hle : l = [] := hp.2.1 l hph
      subst hle
      unfold stepQueried
      rw [if_pos (show ([] : List String).isEmpty = true from rfl)]
      intro w'' hw''
      rw [setWorker_getElem st j _ hlen] at hw''
      rw [← Option.some.inj hw'']
      refine ⟨?_, ?_, ?_⟩
      · show w.consecutive_failures + 1 = w.scraped_count + 1
        rw [hp.1]
      · intro l' hl'; exact absurd hl' (by simp)
      · intro hl'; exact absurd hl' (by simp)

theorem initEngine_worker_eq (cfg : EngineCfg) (seedLines : List String)
    (i : Nat) (w : WorkerState)
    (hw : (initEngine cfg seedLines).workers[i]? = some w) :
    w = ⟨.atLoopTop, 0, 0⟩ := by
  have hmem : w ∈ (initEngine cfg seedLines).workers := List.getElem?_mem hw
  have hmem2 : w ∈ cfg.sources.map
      (fun _ => (⟨.atLoopTop, 0, 0⟩ : WorkerState)) := hmem
  rcases List.mem_map.1 hmem2 with ⟨_, _, hweq⟩
  exact hweq.symm

theorem breakerInv_init (cfg : EngineCfg) (seedLines : List String) (i : Nat) :
    BreakerInv cfg.max_keywords_per_engine i (initEngine cfg seedLines) := by
  intro w hw
  rw [initEngine_worker_eq cfg seedLines i w hw]
  refine ⟨rfl, ?_, ?_⟩
  · intro l hl; exact absurd hl (by simp)
  · intro hl; exact absurd hl (by simp)

/-- C3: for a worker whose bound source fails on every query (empty
client result each time), the processed count never exceeds the
consecutive-failure threshold 5 ("never more"); if the worker halted with
its per-engine cap not reached, it halted with exactly 5 consecutive
failures after exactly 5 failed queries ("never fewer" — the only other
loop exits are the stop event, the cap, and starvation); and any
terminated worker stays terminated with unchanged counters for the rest
of the run, however long the schedule continues (no automatic reset). -/
theorem breaker_trips_after_five (cfg : EngineCfg) (seedLines : List String)
    (i : Nat) (source : String → SourceResp)
    (hs : cfg.sources[i]? = some source)
    (hfail : ∀ kw, client_get_suggestions source kw = [])
    (sched : List Nat) (w : WorkerState)
    (hw : (runEngine cfg (initEngine cfg seedLines) sched).workers[i]? = some w) :
    w.scraped_count ≤ max_consecutive_failures ∧
    (w.phase = .done .halted →
      w.scraped_count < cfg.max_keywords_per_engine →
      w.consecutive_failures = max_consecutive_failures ∧
      w.scraped_count = max_consecutive_failures) ∧
    (∀ t, w.phase = .done t → ∀ extra : List Nat,
      (runEngine cfg (initEngine cfg seedLines) (sched ++ extra)).workers[i]?
        = some w) := by
  have hbrk := runEngine_inv cfg (BreakerInv cfg.max_keywords_per_engine i)
    (fun st j hbi => breakerInv_step cfg st j i source hs hfail hbi) sched _
    (breakerInv_init cfg seedLines i)
  have hall := runEngine_inv cfg (AllWInv cfg.max_keywords_per_engine)
    (fun st j => allWInv_step cfg st j) sched _ (allWInv_init cfg seedLines)
  have hprops := hbrk w hw
  have hwinv := hall w (List.getElem?_mem hw)
  refine ⟨?_, ?_, ?_⟩
  · rw [← hprops.1]
    exact hwinv.2.1
  · intro hph hcap
    rcases hprops.2.2 hph with hstop | hcapge | hge
    · rw [runEngine_stop] at hstop
      simp [initEngine] at hstop
    · exact absurd hcapge (Nat.not_le_of_lt hcap)
    · have hf5 : w.consecutive_failures = max_consecutive_failures :=
        Nat.le_antisymm hwinv.2.1 hge
      refine ⟨hf5, ?_⟩
      rw [← hprops.1]
      exact hf5
  · intro t hph extra
    rw [runEngine_append]
    exact runEngine_done_frozen cfg extra _ i w t hw hph

/-- Witness for `breaker_trips_after_five`: five fresh seeds and an
always-failing source: the worker halts after exactly five failed
queries. -/
theorem breaker_trips_after_five_witness :
    ∃ w, (runEngine cfgNet (initEngine cfgNet ["a", "b", "c", "d", "e"])
        (List.replicate 21 0)).workers[0]? = some w ∧
      w.consecutive_failures = 5 ∧ w.scraped_count = 5 ∧
      w.phase = .done .halted := by
  have hw : (runEngine cfgNet (initEngine cfgNet ["a", "b", "c", "d", "e"])
      (List.replicate 21 0)).workers[0]? = some ⟨.done .halted, 5, 5⟩ := by
    decide
  have h := breaker_trips_after_five cfgNet ["a", "b", "c", "d", "e"] 0
    (fun _ => SourceResp.netError) rfl
    (fun kw => by unfold client_get_suggestions; split <;> rfl)
    (List.replicate 21 0) _ hw
  obtain ⟨hf, hc⟩ := h.2.1 rfl (by decide)
  exact ⟨_, hw, hf, hc, rfl⟩

/-! ### C5: starvation termination -/

/-- Weight of a worker's loop position, decreasing along one iteration. -/
def phaseWeight : WPhase → Nat
  | .atLoopTop => 1
  | .holding _ => 4
  | .admitted _ => 3
  | .queried _ => 2
  | .done _ => 0

@[simp] theorem phaseWeight_atLoopTop : phaseWeight .atLoopTop = 1 := rfl
@[simp] theorem phaseWeight_holding (k : String) :
    phaseWeight (.holding k) = 4 := rfl
@[simp] theorem phaseWeight_admitted (k : String) :
    phaseWeight (.admitted k) = 3 := rfl
@[simp] theorem phaseWeight_queried (l : List String) :
    phaseWeight (.queried l) = 2 := rfl
@[simp] theorem phaseWeight_done (t : Terminal) :
    phaseWeight (.done t) = 0 := rfl

/-- Termination measure for runs whose sources return no suggestions:
the queue never grows and every productive micro-step decreases it. -/
def engineMeasure (st : EngineState) : Nat :=
  4 * st.keyword_queue.length +
    (st.workers.map (fun x => phaseWeight x.phase)).sum

/-- Every pending query result in the state is empty. -/
def QueriedEmptyInv (st : EngineState) : Prop :=
  ∀ w ∈ st.workers, ∀ l, w.phase = .queried l → l = []

theorem queriedEmpty_set_aux (l : List WorkerState) (j : Nat)
    (w' : WorkerState) (h : ∀ w ∈ l, ∀ s, w.phase = .queried s → s = [])
    (hw' : ∀ s, w'.phase = .queried s → s = []) :
    ∀ x ∈ l.set j w', ∀ s, x.phase = .queried s → s = [] := by
  intro x hx
  rcases List.mem_or_eq_of_mem_set hx with hm | he
  · exact h x hm
  · rw [he]; exact hw'

theorem queriedEmptyInv_step (cfg : EngineCfg) (st : EngineState) (j : Nat)
    (hEmpty : ∀ source ∈ cfg.sources, ∀ kw,
      client_get_suggestions source kw = [])
    (h : QueriedEmptyInv st) : QueriedEmptyInv (worker_step cfg st j) := by
  rcases worker_step_cases cfg st j with he | ⟨source, w, hs, hw, hc⟩
  · rw [he]; exact h
  have hsrcmem : source ∈ cfg.sources := List.getElem?_mem hs
  rcases hc with ⟨hph, he⟩ | ⟨k, hph, he⟩ | ⟨k, hph, he⟩ | ⟨l, hph, he⟩ <;> rw [he]
  · unfold stepAtTop
    split
    · intro x hx
      exact queriedEmpty_set_aux st.workers j _ h
        (by intro s hs'; exact absurd hs' (by simp)) x hx
    · split
      · intro x hx
        exact queriedEmpty_set_aux st.workers j _ h
          (by intro s hs'; exact absurd hs' (by simp)) x hx
      · intro x hx
        exact queriedEmpty_set_aux st.workers j _ h
          (by intro s hs'; exact absurd hs' (by simp)) x hx
  · unfold stepHolding
    split
    · intro x hx
      exact queriedEmpty_set_aux st.workers j _ h
        (by intro s hs'; exact absurd hs' (by simp)) x hx
    · intro x hx
      exact queriedEmpty_set_aux st.workers j _ h
        (by intro s hs'; exact absurd hs' (by simp)) x hx
  · unfold stepAdmitted
    intro x hx
    refine queriedEmpty_set_aux st.workers j _ h ?_ x hx
    intro s hs'
    have : client_get_suggestions source k = s := by simpa using hs'
    rw [← this]
    exact hEmpty source hsrcmem k
  · unfold stepQueried
    split
    · intro x hx
      exact queriedEmpty_set_aux st.workers j _ h
        (by intro s hs'; exact absurd hs' (by simp)) x hx
    · intro x hx
      have hx' : x ∈ st.workers.set j
          { w with phase := .atLoopTop, consecutive_failures := 0,
                   scraped_count := w.scraped_count + 1 } := by
        rw [setWorker_workers, discoverSuggestions_workers] at hx
        exact hx
      exact queriedEmpty_set_aux st.workers j _ h
        (by intro s hs'; exact absurd hs' (by simp)) x hx'

theorem sum_map_set_eq (l : List WorkerState) :
    ∀ (j : Nat) (w wNew : WorkerState), l[j]? = some w →
      ((l.set j wNew).map (fun x => phaseWeight x.phase)).sum +
          phaseWeight w.phase =
        (l.map (fun x => phaseWeight x.phase)).sum + phaseWeight wNew.phase := by
  induction l with
  | nil => intro j w wNew hw; simp at hw
  | cons a t ih =>
      intro j w wNew hw
      cases j with
      | zero =>
          have ha : a = w := by simpa using hw
          subst ha
          simp only [List.set_cons_zero, List.map_cons, List.sum_cons]
          omega
      | succ j =>
          have hw' : t[j]? = some w := by simpa using hw
          have := ih j w wNew hw'
          simp only [List.set_cons_succ, List.map_cons, List.sum_cons]
          omega

/-- A micro-step of a worker that has not finished strictly decreases the
measure, provided no pending query result is non-empty. -/
theorem worker_step_measure_lt (cfg : EngineCfg) (st : EngineState) (j : Nat)
    (source : String → SourceResp) (w : WorkerState)
    (hq : QueriedEmptyInv st)
    (hs : cfg.sources[j]? = some source) (hw : st.workers[j]? = some w)
    (hnd : ∀ t, w.phase ≠ .done t) :
    engineMeasure (worker_step cfg st j) + 1 ≤ engineMeasure st := by
  have hwm : w ∈ st.workers := List.getElem?_mem hw
  rw [worker_step_eq_dispatch cfg st j source w hs hw]
  cases hph : w.phase with
  | atLoopTop =>
      rw [dispatchPhase_top]
      unfold stepAtTop
      split
      · have hsum := sum_map_set_eq st.workers j
          w { w with phase := .done .halted } hw
        rw [hph] at hsum
        simp only [phaseWeight_atLoopTop, phaseWeight_holding, phaseWeight_admitted,
          phaseWeight_queried, phaseWeight_done] at hsum
        show 4 * st.keyword_queue.length + ((st.workers.set j
          { w with phase := .done .halted }).map
            (fun x => phaseWeight x.phase)).sum + 1 ≤ engineMeasure st
        unfold engineMeasure
        omega
      · split
        · have hsum := sum_map_set_eq st.workers j
            w { w with phase := .done .starved } hw
          rw [hph] at hsum
          simp only [phaseWeight_atLoopTop, phaseWeight_holding, phaseWeight_admitted,
          phaseWeight_queried, phaseWeight_done] at hsum
          show 4 * st.keyword_queue.length + ((st.workers.set j
            { w with phase := .done .starved }).map
              (fun x => phaseWeight x.phase)).sum + 1 ≤ engineMeasure st
          unfold engineMeasure
          omega
        · next k rest hqe =>
            have hsum := sum_map_set_eq
              st.workers j w { w with phase := .holding k } hw
            rw [hph] at hsum
            simp only [phaseWeight_atLoopTop, phaseWeight_holding, phaseWeight_admitted,
          phaseWeight_queried, phaseWeight_done] at hsum
            show 4 * rest.length + ((st.workers.set j
              { w with phase := .holding k }).map
                (fun x => phaseWeight x.phase)).sum + 1 ≤ engineMeasure st
            unfold engineMeasure
            rw [hqe]
            simp only [List.length_cons]
            omega
  | holding k =>
      rw [dispatchPhase_holding]
      unfold stepHolding
      split
      · have hsum := sum_map_set_eq st.workers j
          w { w with phase := .atLoopTop } hw
        rw [hph] at hsum
        simp only [phaseWeight_atLoopTop, phaseWeight_holding, phaseWeight_admitted,
          phaseWeight_queried, phaseWeight_done] at hsum
        show 4 * st.keyword_queue.length + ((st.workers.set j
          { w with phase := .atLoopTop }).map
            (fun x => phaseWeight x.phase)).sum + 1 ≤ engineMeasure st
        unfold engineMeasure
        omega
      · have hsum := sum_map_set_eq st.workers j
          w { w with phase := .admitted k } hw
        rw [hph] at hsum
        simp only [phaseWeight_atLoopTop, phaseWeight_holding, phaseWeight_admitted,
          phaseWeight_queried, phaseWeight_done] at hsum
        show 4 * st.keyword_queue.length + ((st.workers.set j
          { w with phase := .admitted k }).map
            (fun x => phaseWeight x.phase)).sum + 1 ≤ engineMeasure st
        unfold engineMeasure
        omega
  | admitted k =>
      rw [dispatchPhase_admitted]
      unfold stepAdmitted
      have hsum := sum_map_set_eq st.workers j
        w { w with phase := .queried (client_get_suggestions source k) } hw
      rw [hph] at hsum
      simp only [phaseWeight_atLoopTop, phaseWeight_holding, phaseWeight_admitted,
          phaseWeight_queried, phaseWeight_done] at hsum
      show 4 * st.keyword_queue.length + ((st.workers.set j
        { w with phase := .queried (client_get_suggestions source k) }).map
          (fun x => phaseWeight x.phase)).sum + 1 ≤ engineMeasure st
      unfold engineMeasure
      omega
  | queried l =>
      have hle : l = [] := hq w hwm l hph
      subst hle
      rw [dispatchPhase_queried]
      unfold stepQueried
      rw [if_pos (show ([] : List String).isEmpty = true from rfl)]
      have hsum := sum_map_set_eq st.workers j
        w { w with phase := .atLoopTop,
                   consecutive_failures := w.consecutive_failures + 1,
                   scraped_count := w.scraped_count + 1 } hw
      rw [hph] at hsum
      simp only [phaseWeight_atLoopTop, phaseWeight_holding, phaseWeight_admitted,
          phaseWeight_queried, phaseWeight_done] at hsum
      show 4 * st.keyword_queue.length + ((st.workers.set j
        { w with phase := .atLoopTop,
                 consecutive_failures := w.consecutive_failures + 1,
                 scraped_count := w.scraped_count + 1 }).map
          (fun x => phaseWeight x.phase)).sum + 1 ≤ engineMeasure st
      unfold engineMeasure
      omega
  | done t => exact absurd hph (hnd t)

/-- No micro-step increases the measure in such runs. -/
theorem worker_step_measure_le (cfg : EngineCfg) (st : EngineState) (j : Nat)
    (hq : QueriedEmptyInv st) :
    engineMeasure (worker_step cfg st j) ≤ engineMeasure st := by
  rcases worker_step_cases cfg st j with he | ⟨source, w, hs, hw, hc⟩
  · rw [he]
  · have hnd : ∀ t, w.phase ≠ .done t := by
      rcases hc with ⟨hph, _⟩ | ⟨k, hph, _⟩ | ⟨k, hph, _⟩ | ⟨l, hph, _⟩ <;>
        intro t ht <;> rw [ht] at hph <;> exact absurd hph (by simp)
    have := worker_step_measure_lt cfg st j source w hq hs hw hnd
    omega

theorem queriedEmptyInv_init (cfg : EngineCfg) (seedLines : List String) :
    QueriedEmptyInv (initEngine cfg seedLines) := by
  intro w hw l hl
  rcases List.mem_map.1 (show w ∈ cfg.sources.map
      (fun _ => (⟨.atLoopTop, 0, 0⟩ : WorkerState)) from hw) with ⟨_, _, hweq⟩
  rw [← hweq] at hl
  exact absurd hl (by simp)

/-- Counting argument: as long as worker `i` has not terminated, every
time it is scheduled the measure strictly drops, and no step raises it;
hence the number of times `i` appears in the schedule is bounded. -/
theorem run_measure_bound (cfg : EngineCfg) (i : Nat)
    (hEmpty : ∀ source ∈ cfg.sources, ∀ kw,
      client_get_suggestions source kw = [])
    (hi : i < cfg.sources.length) :
    ∀ (sched : List Nat) (st : EngineState), QueriedEmptyInv st →
      st.workers.length = cfg.sources.length →
      (∀ w, (runEngine cfg st sched).workers[i]? = some w →
        ∀ t, w.phase ≠ .done t) →
      engineMeasure (runEngine cfg st sched) + sched.count i ≤
        engineMeasure st := by
  intro sched
  induction sched with
  | nil =>
      intro st _ _ _
      simp [runEngine_nil]
  | cons j rest ih =>
      intro st hq hlen hnd
      have hq' : QueriedEmptyInv (worker_step cfg st j) :=
        queriedEmptyInv_step cfg st j hEmpty hq
      have hlen' : (worker_step cfg st j).workers.length = cfg.sources.length := by
        rw [worker_step_workers_length]; exact hlen
      have hnd' : ∀ w, (runEngine cfg (worker_step cfg st j) rest).workers[i]?
          = some w → ∀ t, w.phase ≠ .done t := by
        intro w hw t
        exact hnd w (by rw [runEngine_cons]; exact hw) t
      have hIH := ih (worker_step cfg st j) hq' hlen' hnd'
      rw [runEngine_cons]
      by_cases hji : j = i
      · subst hji
        have hjlt : j < st.workers.length := by rw [hlen]; exact hi
        obtain ⟨w0, hw⟩ : ∃ w0, st.workers[j]? = some w0 :=
          ⟨_, List.getElem?_eq_getElem hjlt⟩
        obtain ⟨source0, hsrc⟩ : ∃ s, cfg.sources[j]? = some s :=
          ⟨_, List.getElem?_eq_getElem hi⟩
        have hwnd : ∀ t, w0.phase ≠ .done t := by
          intro t hph
          have hstep := worker_step_done_frozen cfg st j j w0 t hw hph
          have hfroz := runEngine_done_frozen cfg rest (worker_step cfg st j)
            j w0 t hstep hph
          exact hnd w0 (by rw [runEngine_cons]; exact hfroz) t hph
        have hlt := worker_step_measure_lt cfg st j source0 w0 hq hsrc hw hwnd
        have hcnt : (j :: rest).count j = rest.count j + 1 := by
          simp [List.count_cons]
        rw [hcnt]
        omega
      · have hle := worker_step_measure_le cfg st j hq
        have hcnt : (j :: rest).count i = rest.count i := by
          simp [List.count_cons, hji]
        rw [hcnt]
        omega

/-- C5: in a run whose sources return no suggestions (every query yields
an empty client result), a worker that is scheduled more often than the
initial measure allows must have reached a terminal state — the run
cannot block or loop forever; moreover, a worker at its loop top facing
an empty queue (the model of `queue.get(timeout=5)` raising `Empty`) with
its guard still true terminates as STARVED on its very next step rather
than retrying. -/
theorem starvation_termination (cfg : EngineCfg) (seedLines : List String)
    (hEmpty : ∀ source ∈ cfg.sources, ∀ kw,
      client_get_suggestions source kw = [])
    (i : Nat) (hi : i < cfg.sources.length) (sched : List Nat)
    (hcount : engineMeasure (initEngine cfg seedLines) + 1 ≤ sched.count i) :
    (∃ w t, (runEngine cfg (initEngine cfg seedLines) sched).workers[i]? =
        some w ∧ w.phase = .done t) ∧
    (∀ (st : EngineState) (w : WorkerState) (source : String → SourceResp),
      cfg.sources[i]? = some source → st.workers[i]? = some w →
      w.phase = .atLoopTop → st.keyword_queue = [] →
      st.stopEvent = false →
      w.scraped_count < cfg.max_keywords_per_engine →
      w.consecutive_failures < max_consecutive_failures →
      ∃ w', (worker_step cfg st i).workers[i]? = some w' ∧
        w'.phase = .done .starved) := by
  constructor
  · by_contra hcon
    have hnd : ∀ w, (runEngine cfg (initEngine cfg seedLines)
        sched).workers[i]? = some w → ∀ t, w.phase ≠ .done t := by
      intro w hw t hph
      exact hcon ⟨w, t, hw, hph⟩
    have hb := run_measure_bound cfg i hEmpty hi sched
      (initEngine cfg seedLines) (queriedEmptyInv_init cfg seedLines)
      (initEngine_workers_length cfg seedLines) hnd
    omega
  · intro st w source hs hw hph hque hstop hcap hfail
    have hlen : i < st.workers.length := by
      rcases List.getElem?_eq_some.1 hw with ⟨hh, _⟩; exact hh
    rw [worker_step_eq_dispatch cfg st i source w hs hw, hph,
      dispatchPhase_top]
    unfold stepAtTop
    rw [if_neg]
    · rw [hque]
      refine ⟨⟨.done .starved, w.scraped_count, w.consecutive_failures⟩, ?_, rfl⟩
      exact setWorker_getElem st i _ hlen
    · intro hguard
      rcases hguard with hg | hg | hg
      · rw [hstop] at hg; cases hg
      · exact absurd hg (Nat.not_le_of_lt hcap)
      · exact absurd hg (Nat.not_le_of_lt hfail)

/-- Witness for `starvation_termination`: one worker, one seed, an
always-failing source; the initial measure is 5, and after six
schedulings the worker has terminated. -/
theorem starvation_termination_witness :
    ∃ w t, (runEngine cfgNet (initEngine cfgNet ["a"])
        (List.replicate 6 0)).workers[0]? = some w ∧ w.phase = .done t := by
  have hEmpty : ∀ source ∈ cfgNet.sources, ∀ kw,
      client_get_suggestions source kw = [] := by
    intro source hsrc kw
    have hsrceq : source = fun _ => SourceResp.netError :=
      List.mem_singleton.1 hsrc
    rw [hsrceq]
    unfold client_get_suggestions
    split <;> rfl
  exact (starvation_termination cfgNet ["a"] hEmpty 0 (by decide)
    (List.replicate 6 0) (by decide)).1
